import Mathlib

/-!
Verification of the worker-pool wrapper (package goroutine, file with
workerWrapper) and of the buffered TCP connection pool (package tcpPool).

The worker wrapper is modelled as a trace generator: a complete run of
workerWrapper.Loop is a list of events, driven by an oracle that supplies the
successive results of worker.Ready() and the values of the atomic poolOpen
flag at each check.  The connection pool is modelled as a pure state machine
over the contents of the buffered conns channel.
-/

namespace Goroutine

/-- Events observable in one run of workerWrapper.Loop, together with the
Initialize and Terminate calls made by Open and Join around the loop. -/
inductive Ev where
  | pollReady (b : Bool)
  | checkOpen (b : Bool)
  | sendReady
  | recvJob (v : Int)
  | callJob (v : Int)
  | sendOutput (v : Int)
  | closeReady
  | closeOutput
  | initCall
  | termCall
deriving DecidableEq

/-- One readiness-polling phase of the loop, embedding
for not worker.Ready() do (if poolOpen == 0 then break; sleep).
Each oracle entry is the pair (result of worker.Ready(), value of the
poolOpen flag at the check that follows a false result).  Returns the events
emitted by the phase together with a flag that is true when the phase ended
because Ready returned true and false when it ended because the closed pool
was observed; none when the oracle is exhausted, i.e. the run is not a
complete one. -/
def pollPhase : List (Bool × Bool) → Option (List Ev × Bool)
  | [] => none
  | (true, _) :: _ => some ([Ev.pollReady true], true)
  | (false, false) :: _ => some ([Ev.pollReady false, Ev.checkOpen false], false)
  | (false, true) :: rest =>
    match pollPhase rest with
    | none => none
    | some (tr, res) => some (Ev.pollReady false :: Ev.checkOpen true :: tr, res)

/-- A complete run of workerWrapper.Loop.  f is the Job function of the
worker, jobs are the values received from the job channel before it is
closed, and each polling phase consumes one oracle from the list.  In the Go
code, Close first closes the job channel and only then clears poolOpen, and
the atomic load in the loop observes that order, so a phase that saw
poolOpen == 0 is never followed by another job: the model hard-codes that
ordering.  After such a phase the code still executes readyChan <- 1 (that
send is consumed by the drain loop of Join) before the range over the now
closed job channel ends the loop, which then closes the ready channel and
the output channel. -/
def Loop (f : Int → Int) : List Int → List (List (Bool × Bool)) → Option (List Ev)
  | _, [] => none
  | jobs, oracle :: oracles =>
    match pollPhase oracle with
    | none => none
    | some (ptr, false) => some (ptr ++ [Ev.sendReady, Ev.closeReady, Ev.closeOutput])
    | some (ptr, true) =>
      match jobs with
      | [] => some (ptr ++ [Ev.sendReady, Ev.closeReady, Ev.closeOutput])
      | j :: rest =>
        match Loop f rest oracles with
        | none => none
        | some tl =>
          some (ptr ++ Ev.sendReady :: Ev.recvJob j :: Ev.callJob j ::
            Ev.sendOutput (f j) :: tl)

/-- Run of Open, the loop, Close and Join for one wrapper: Open calls
Initialize first when the worker implements GoroutineExtendedWorker (flag
ext), then starts the loop; Join drains the ready and output channels until
both report closed, which happens only after the loop has emitted its final
events, and only then calls Terminate when ext holds. -/
def wrapperRun (ext : Bool) (f : Int → Int) (jobs : List Int)
    (oracles : List (List (Bool × Bool))) : Option (List Ev) :=
  match Loop f jobs oracles with
  | none => none
  | some tr =>
    some ((if ext then [Ev.initCall] else []) ++ tr ++
      (if ext then [Ev.termCall] else []))

/-- The drain loop of workerWrapper.Join.  rs and os are the items still to
be received from the ready channel and the output channel before each
reports closed; one iteration receives from both and stops when both
receives reported a closed channel.  The fuel bounds the number of
iterations; running out of fuel stands for a drain that has not terminated
yet. -/
def joinDrain : Nat → List Nat → List Int → Bool
  | 0, _, _ => false
  | fuel + 1, rs, os =>
    if rs.isEmpty && os.isEmpty then true
    else joinDrain fuel rs.tail os.tail

/-- Scan checking that at most one job is in flight: a job may be received
from the job channel only when the result of the previous one has already
been sent on the output channel.  The accumulator records whether a received
job is still awaiting its output send. -/
def oneInFlight : Bool → List Ev → Bool
  | _, [] => true
  | inF, Ev.recvJob _ :: rest => !inF && oneInFlight true rest
  | _, Ev.sendOutput _ :: rest => oneInFlight false rest
  | inF, _ :: rest => oneInFlight inF rest

/-- Scan checking that every Job call happens while the most recent Ready
poll returned true; the accumulator holds the result of the most recent poll
and is false before any poll happened. -/
def readyScan : Bool → List Ev → Bool
  | _, [] => true
  | _, Ev.pollReady b :: rest => readyScan b rest
  | lastR, Ev.callJob _ :: rest => lastR && readyScan lastR rest
  | lastR, _ :: rest => readyScan lastR rest

/-- The events that follow the first observation of a closed pool, i.e. the
first checkOpen false event, or none when pool closure is never observed
while polling. -/
def tailAfterClose : List Ev → Option (List Ev)
  | [] => none
  | Ev.checkOpen false :: rest => some rest
  | _ :: rest => tailAfterClose rest

/-- Scan for the literal reading of the closed-pool claim: after pool
closure has been observed while polling, no send on the ready channel ever
occurs.  The accumulator records whether closure has been observed. -/
def noReadySentAfterClose : Bool → List Ev → Bool
  | _, [] => true
  | closed, Ev.checkOpen b :: rest => noReadySentAfterClose (closed || !b) rest
  | true, Ev.sendReady :: _ => false
  | closed, _ :: rest => noReadySentAfterClose closed rest

/-- Model of the worker field of the wrapper for Interrupt: the worker does
or does not implement GoroutineInterruptable; when it does, interruptImpl
holds its Interrupt method acting on the worker state. -/
structure WorkerIface where
  state : Int
  interruptImpl : Option (Int → Int)

/-- workerWrapper.Interrupt: forward to the worker exactly when the type
assertion to GoroutineInterruptable succeeds; the boolean reports whether
the worker method was invoked. -/
def wrapperInterrupt (w : WorkerIface) : WorkerIface × Bool :=
  match w.interruptImpl with
  | some impl => ({ w with state := impl w.state }, true)
  | none => (w, false)

end Goroutine

namespace TcpPool

/-- net.Conn modelled as an abstract identifier; none is the nil
interface. -/
abbrev Conn := Option Nat

/-- Errors produced by the pool, mirroring the error values of the source:
ErrClosed, the nil rejection of put, the invalid capacity error of
NewChannelPool, a raw factory error (carrying an abstract code) and the
wrapped factory error produced while filling the pool. -/
inductive PoolErr where
  | errClosed
  | errNilConn
  | errInvalidCap
  | errFactory (code : Nat)
  | errFill (code : Nat)
deriving DecidableEq

/-- channelPool: the buffered conns channel (none once Close has set the
field to nil, some cs while the channel holds exactly the connections cs in
order) and its capacity maxCap. -/
structure channelPool where
  conns : Option (List Conn)
  cap : Nat
deriving DecidableEq

/-- PoolConn: the wrapper handed out by Get, holding the underlying
connection and the unusable mark. -/
structure PoolConn where
  conn : Conn
  unusable : Bool
deriving DecidableEq

/-- channelPool.wrapConn: wrap a raw connection in a PoolConn; the wrapper
value itself is never a nil interface. -/
def wrapConn (conn : Conn) : PoolConn := { conn := conn, unusable := false }

/-- channelPool.Get.  fres is the pair the factory would return when
invoked: the connection (possibly nil) and its error code (none on
success).  The result is the Go pair (returned connection or nil, error or
nil), the updated pool, and whether the factory was invoked.  The select
with a default branch never blocks: a buffered value is taken when present,
otherwise the factory runs. -/
def channelPool.Get (p : channelPool) (fres : Conn × Option Nat) :
    (Option PoolConn × Option PoolErr) × channelPool × Bool :=
  match p.conns with
  | none => ((none, some PoolErr.errClosed), p, false)
  | some cs =>
    match cs with
    | conn :: rest =>
      match conn with
      | none => ((none, some PoolErr.errClosed), { p with conns := some rest }, false)
      | some c =>
        ((some (wrapConn (some c)), none), { p with conns := some rest }, false)
    | [] =>
      match fres with
      | (_, some e) => ((none, some (PoolErr.errFactory e)), p, true)
      | (conn, none) => ((some (wrapConn conn), none), p, true)

/-- channelPool.put.  Result: (error or nil, updated pool, whether Close was
called on the connection).  A nil connection is rejected before the pool is
touched; when the pool is closed or the buffer is full the connection is
closed instead of being stored. -/
def channelPool.put (p : channelPool) (conn : Conn) :
    Option PoolErr × channelPool × Bool :=
  match conn with
  | none => (some PoolErr.errNilConn, p, false)
  | some c =>
    match p.conns with
    | none => (none, p, true)
    | some cs =>
      if cs.length < p.cap then (none, { p with conns := some (cs ++ [some c]) }, false)
      else (none, p, true)

/-- channelPool.Close.  Sets the conns field to nil; when it was not already
nil the channel is closed and every buffered connection is closed (the
second component counts the closed connections).  On an already closed pool
the early return fires before the close of the nil channel, so a second
Close does not panic and changes nothing. -/
def channelPool.Close (p : channelPool) : channelPool × Nat :=
  match p.conns with
  | none => ({ p with conns := none }, 0)
  | some cs => ({ p with conns := none }, cs.length)

/-- channelPool.Len: the length of the conns channel; the length of a nil
channel is 0. -/
def channelPool.Len (p : channelPool) : Nat :=
  match p.conns with
  | none => 0
  | some cs => cs.length

/-- The fill loop of NewChannelPool: call the factory n more times (i counts
the calls already made), appending each connection to the buffer; a factory
error aborts construction with the wrapped fill error. -/
def fillPool (factory : Nat → Conn × Option Nat) : Nat → Nat → List Conn →
    Except PoolErr (List Conn)
  | 0, _, acc => Except.ok acc
  | n + 1, i, acc =>
    match factory i with
    | (_, some e) => Except.error (PoolErr.errFill e)
    | (conn, none) => fillPool factory n (i + 1) (acc ++ [conn])

/-- NewChannelPool: validates the capacity settings, then creates a buffered
channel of capacity maxCap and fills it with initialCap factory
connections. -/
def NewChannelPool (initialCap maxCap : Int) (factory : Nat → Conn × Option Nat) :
    Except PoolErr channelPool :=
  if initialCap < 0 ∨ maxCap ≤ 0 ∨ initialCap > maxCap then
    Except.error PoolErr.errInvalidCap
  else
    match fillPool factory initialCap.toNat 0 [] with
    | Except.error e => Except.error e
    | Except.ok cs => Except.ok { conns := some cs, cap := maxCap.toNat }

/-- PoolConn.Close: an unusable wrapper closes the underlying connection
(when not nil) instead of returning it to the pool; otherwise the connection
is handed back via channelPool.put.  The result shape matches the one of
channelPool.put. -/
def PoolConn.Close (pc : PoolConn) (p : channelPool) :
    Option PoolErr × channelPool × Bool :=
  if pc.unusable then
    match pc.conn with
    | some _ => (none, p, true)
    | none => (none, p, false)
  else channelPool.put p pc.conn

end TcpPool

namespace Goroutine

theorem pollPhase_mem (l : List (Bool × Bool)) (tr : List Ev) (res : Bool)
    (h : pollPhase l = some (tr, res)) :
    ∀ e ∈ tr, (∃ b, e = Ev.pollReady b) ∨ ∃ b, e = Ev.checkOpen b := by
  induction l generalizing tr res with
  | nil => simp [pollPhase] at h
  | cons p rest ih =>
    obtain ⟨r, o⟩ := p
    cases r with
    | true =>
      simp only [pollPhase, Option.some.injEq, Prod.mk.injEq] at h
      obtain ⟨htr, -⟩ := h
      subst htr
      intro e he
      simp only [List.mem_singleton] at he
      subst he
      exact Or.inl ⟨true, rfl⟩
    | false =>
      cases o with
      | false =>
        simp only [pollPhase, Option.some.injEq, Prod.mk.injEq] at h
        obtain ⟨htr, -⟩ := h
        subst htr
        intro e he
        simp only [List.mem_cons, List.mem_singleton, List.not_mem_nil, or_false] at he
        rcases he with he | he
        · subst he; exact Or.inl ⟨false, rfl⟩
        · subst he; exact Or.inr ⟨false, rfl⟩
      | true =>
        simp only [pollPhase] at h
        cases hp : pollPhase rest with
        | none => rw [hp] at h; simp at h
        | some pr =>
          obtain ⟨tr1, res1⟩ := pr
          rw [hp] at h
          simp only [Option.some.injEq, Prod.mk.injEq] at h
          obtain ⟨htr, -⟩ := h
          subst htr
          intro e he
          simp only [List.mem_cons] at he
          rcases he with he | he | he
          · subst he; exact Or.inl ⟨false, rfl⟩
          · subst he; exact Or.inr ⟨true, rfl⟩
          · exact ih tr1 res1 hp e he

end Goroutine

namespace Goroutine

theorem readyScan_pollPhase (l : List (Bool × Bool)) (tr : List Ev) (res : Bool)
    (h : pollPhase l = some (tr, res)) (k : List Ev) :
    ∀ a, readyScan a (tr ++ k) = readyScan res k := by
  induction l generalizing tr res with
  | nil => simp [pollPhase] at h
  | cons p rest ih =>
    obtain ⟨r, o⟩ := p
    cases r with
    | true =>
      simp only [pollPhase, Option.some.injEq, Prod.mk.injEq] at h
      obtain ⟨htr, hres⟩ := h
      subst htr
      subst hres
      intro a
      simp [readyScan]
    | false =>
      cases o with
      | false =>
        simp only [pollPhase, Option.some.injEq, Prod.mk.injEq] at h
        obtain ⟨htr, hres⟩ := h
        subst htr
        subst hres
        intro a
        simp [readyScan]
      | true =>
        simp only [pollPhase] at h
        cases hp : pollPhase rest with
        | none => rw [hp] at h; simp at h
        | some pr =>
          obtain ⟨tr1, res1⟩ := pr
          rw [hp] at h
          simp only [Option.some.injEq, Prod.mk.injEq] at h
          obtain ⟨htr, hres⟩ := h
          subst htr
          subst hres
          intro a
          simp only [List.cons_append, readyScan]
          exact ih tr1 _ hp false

theorem pollPhase_no_closeObs (l : List (Bool × Bool)) (tr : List Ev)
    (h : pollPhase l = some (tr, true)) : Ev.checkOpen false ∉ tr := by
  induction l generalizing tr with
  | nil => simp [pollPhase] at h
  | cons p rest ih =>
    obtain ⟨r, o⟩ := p
    cases r with
    | true =>
      simp only [pollPhase, Option.some.injEq, Prod.mk.injEq] at h
      obtain ⟨htr, -⟩ := h
      subst htr
      simp
    | false =>
      cases o with
      | false =>
        simp only [pollPhase, Option.some.injEq, Prod.mk.injEq] at h
        exact absurd h.2 (by simp)
      | true =>
        simp only [pollPhase] at h
        cases hp : pollPhase rest with
        | none => rw [hp] at h; simp at h
        | some pr =>
          obtain ⟨tr1, res1⟩ := pr
          rw [hp] at h
          simp only [Option.some.injEq, Prod.mk.injEq] at h
          obtain ⟨htr, hres⟩ := h
          subst htr
          subst hres
          simp only [List.mem_cons, not_or]
          exact ⟨by simp, by simp, ih tr1 hp⟩

theorem tailAfterClose_append_of_not_mem (tr k : List Ev)
    (h : Ev.checkOpen false ∉ tr) :
    tailAfterClose (tr ++ k) = tailAfterClose k := by
  induction tr with
  | nil => rfl
  | cons e rest ih =>
    simp only [List.mem_cons, not_or] at h
    obtain ⟨he, hrest⟩ := h
    cases e with
    | checkOpen b =>
      cases b with
      | false => exact absurd rfl he
      | true => simpa [tailAfterClose] using ih hrest
    | pollReady b => simpa [tailAfterClose] using ih hrest
    | sendReady => simpa [tailAfterClose] using ih hrest
    | recvJob v => simpa [tailAfterClose] using ih hrest
    | callJob v => simpa [tailAfterClose] using ih hrest
    | sendOutput v => simpa [tailAfterClose] using ih hrest
    | closeReady => simpa [tailAfterClose] using ih hrest
    | closeOutput => simpa [tailAfterClose] using ih hrest
    | initCall => simpa [tailAfterClose] using ih hrest
    | termCall => simpa [tailAfterClose] using ih hrest

theorem tailAfterClose_pollPhase_false (l : List (Bool × Bool)) (tr : List Ev)
    (h : pollPhase l = some (tr, false)) (k : List Ev) :
    tailAfterClose (tr ++ k) = some k := by
  induction l generalizing tr with
  | nil => simp [pollPhase] at h
  | cons p rest ih =>
    obtain ⟨r, o⟩ := p
    cases r with
    | true =>
      simp only [pollPhase, Option.some.injEq, Prod.mk.injEq] at h
      exact absurd h.2 (by simp)
    | false =>
      cases o with
      | false =>
        simp only [pollPhase, Option.some.injEq, Prod.mk.injEq] at h
        obtain ⟨htr, -⟩ := h
        subst htr
        simp [tailAfterClose]
      | true =>
        simp only [pollPhase] at h
        cases hp : pollPhase rest with
        | none => rw [hp] at h; simp at h
        | some pr =>
          obtain ⟨tr1, res1⟩ := pr
          rw [hp] at h
          simp only [Option.some.injEq, Prod.mk.injEq] at h
          obtain ⟨htr, hres⟩ := h
          subst htr
          subst hres
          simp only [List.cons_append, tailAfterClose]
          exact ih tr1 hp

end Goroutine

namespace Goroutine

theorem oneInFlight_append_polls (tr k : List Ev)
    (h : ∀ e ∈ tr, (∃ b, e = Ev.pollReady b) ∨ ∃ b, e = Ev.checkOpen b) (a : Bool) :
    oneInFlight a (tr ++ k) = oneInFlight a k := by
  induction tr with
  | nil => rfl
  | cons e rest ih =>
    have hrest : ∀ x ∈ rest, (∃ b, x = Ev.pollReady b) ∨ ∃ b, x = Ev.checkOpen b :=
      fun x hx => h x (by simp [hx])
    rcases h e (by simp) with ⟨b, rfl⟩ | ⟨b, rfl⟩
    · simpa [oneInFlight] using ih hrest
    · simpa [oneInFlight] using ih hrest

theorem loop_readyScan_all (f : Int → Int) (oracles : List (List (Bool × Bool)))
    (jobs : List Int) (tr : List Ev) (h : Loop f jobs oracles = some tr) :
    ∀ a, readyScan a tr = true := by
  induction oracles generalizing jobs tr with
  | nil => simp [Loop] at h
  | cons oracle oracles ih =>
    simp only [Loop] at h
    cases hp : pollPhase oracle with
    | none => rw [hp] at h; simp at h
    | some pr =>
      obtain ⟨ptr, ok⟩ := pr
      rw [hp] at h
      cases ok with
      | false =>
        simp only [Option.some.injEq] at h
        subst h
        intro a
        rw [show ptr ++ [Ev.sendReady, Ev.closeReady, Ev.closeOutput] =
          ptr ++ [Ev.sendReady, Ev.closeReady, Ev.closeOutput] from rfl]
        rw [readyScan_pollPhase _ _ _ hp]
        rfl
      | true =>
        cases jobs with
        | nil =>
          simp only [Option.some.injEq] at h
          subst h
          intro a
          rw [readyScan_pollPhase _ _ _ hp]
          rfl
        | cons j rest =>
          simp only at h
          cases hl : Loop f rest oracles with
          | none => rw [hl] at h; simp at h
          | some tl =>
            rw [hl] at h
            simp only [Option.some.injEq] at h
            subst h
            intro a
            rw [readyScan_pollPhase _ _ _ hp]
            simp only [readyScan, Bool.true_and]
            exact ih rest tl hl true

theorem loop_ends_close (f : Int → Int) (oracles : List (List (Bool × Bool)))
    (jobs : List Int) (tr : List Ev) (h : Loop f jobs oracles = some tr) :
    ∃ pre, tr = pre ++ [Ev.closeReady, Ev.closeOutput] := by
  induction oracles generalizing jobs tr with
  | nil => simp [Loop] at h
  | cons oracle oracles ih =>
    simp only [Loop] at h
    cases hp : pollPhase oracle with
    | none => rw [hp] at h; simp at h
    | some pr =>
      obtain ⟨ptr, ok⟩ := pr
      rw [hp] at h
      cases ok with
      | false =>
        simp only [Option.some.injEq] at h
        subst h
        exact ⟨ptr ++ [Ev.sendReady], by simp⟩
      | true =>
        cases jobs with
        | nil =>
          simp only [Option.some.injEq] at h
          subst h
          exact ⟨ptr ++ [Ev.sendReady], by simp⟩
        | cons j rest =>
          simp only at h
          cases hl : Loop f rest oracles with
          | none => rw [hl] at h; simp at h
          | some tl =>
            rw [hl] at h
            simp only [Option.some.injEq] at h
            subst h
            obtain ⟨pre, rfl⟩ := ih rest tl hl
            exact ⟨ptr ++ Ev.sendReady :: Ev.recvJob j :: Ev.callJob j ::
              Ev.sendOutput (f j) :: pre, by simp⟩

theorem loop_no_init_term (f : Int → Int) (oracles : List (List (Bool × Bool)))
    (jobs : List Int) (tr : List Ev) (h : Loop f jobs oracles = some tr) :
    Ev.initCall ∉ tr ∧ Ev.termCall ∉ tr := by
  induction oracles generalizing jobs tr with
  | nil => simp [Loop] at h
  | cons oracle oracles ih =>
    simp only [Loop] at h
    cases hp : pollPhase oracle with
    | none => rw [hp] at h; simp at h
    | some pr =>
      obtain ⟨ptr, ok⟩ := pr
      rw [hp] at h
      have hptr : ∀ e ∈ ptr, e ≠ Ev.initCall ∧ e ≠ Ev.termCall := by
        intro e he
        rcases pollPhase_mem _ _ _ hp e he with ⟨b, rfl⟩ | ⟨b, rfl⟩ <;> simp
      cases ok with
      | false =>
        simp only [Option.some.injEq] at h
        subst h
        constructor <;> intro hmem <;> rw [List.mem_append] at hmem <;>
          rcases hmem with hm | hm
        · exact (hptr _ hm).1 rfl
        · simp at hm
        · exact (hptr _ hm).2 rfl
        · simp at hm
      | true =>
        cases jobs with
        | nil =>
          simp only [Option.some.injEq] at h
          subst h
          constructor <;> intro hmem <;> rw [List.mem_append] at hmem <;>
            rcases hmem with hm | hm
          · exact (hptr _ hm).1 rfl
          · simp at hm
          · exact (hptr _ hm).2 rfl
          · simp at hm
        | cons j rest =>
          simp only at h
          cases hl : Loop f rest oracles with
          | none => rw [hl] at h; simp at h
          | some tl =>
            rw [hl] at h
            simp only [Option.some.injEq] at h
            subst h
            obtain ⟨ih1, ih2⟩ := ih rest tl hl
            constructor <;> intro hmem <;> rw [List.mem_append] at hmem <;>
              rcases hmem with hm | hm
            · exact (hptr _ hm).1 rfl
            · simp only [List.mem_cons] at hm
              rcases hm with hm | hm | hm | hm | hm <;> first | simp at hm | exact ih1 hm
            · exact (hptr _ hm).2 rfl
            · simp only [List.mem_cons] at hm
              rcases hm with hm | hm | hm | hm | hm <;> first | simp at hm | exact ih2 hm

theorem joinDrain_total (fuel : Nat) :
    ∀ (rs : List Nat) (os : List Int), max rs.length os.length < fuel →
      joinDrain fuel rs os = true := by
  induction fuel with
  | zero => intro rs os h; omega
  | succ n ih =>
    intro rs os h
    rw [joinDrain]
    split
    · rfl
    · rename_i hne
      apply ih
      rw [Nat.max_lt] at h ⊢
      obtain ⟨h1, h2⟩ := h
      simp only [List.length_tail]
      cases rs with
      | nil =>
        cases os with
        | nil => simp at hne
        | cons o os1 => simp only [List.length_nil, List.length_cons] at h2 ⊢; omega
      | cons r rs1 =>
        cases os with
        | nil => simp only [List.length_nil, List.length_cons] at h1 ⊢; omega
        | cons o os1 =>
          simp only [List.length_cons] at h1 h2 ⊢
          omega

end Goroutine

namespace Goroutine

/-- Claim C1: for every worker wrapper and every complete sequence of processed
jobs, at most one job is in flight in that wrapper at any time: the result
of job N is sent on the output channel before job N+1 is received from the
job channel. -/
theorem loop_at_most_one_in_flight (f : Int → Int) (jobs : List Int)
    (oracles : List (List (Bool × Bool))) (tr : List Ev)
    (h : Loop f jobs oracles = some tr) : oneInFlight false tr = true := by
  induction oracles generalizing jobs tr with
  | nil => simp [Loop] at h
  | cons oracle oracles ih =>
    simp only [Loop] at h
    cases hp : pollPhase oracle with
    | none => rw [hp] at h; simp at h
    | some pr =>
      obtain ⟨ptr, ok⟩ := pr
      rw [hp] at h
      cases ok with
      | false =>
        simp only [Option.some.injEq] at h
        subst h
        rw [oneInFlight_append_polls _ _ (pollPhase_mem _ _ _ hp)]
        rfl
      | true =>
        cases jobs with
        | nil =>
          simp only [Option.some.injEq] at h
          subst h
          rw [oneInFlight_append_polls _ _ (pollPhase_mem _ _ _ hp)]
          rfl
        | cons j rest =>
          simp only at h
          cases hl : Loop f rest oracles with
          | none => rw [hl] at h; simp at h
          | some tl =>
            rw [hl] at h
            simp only [Option.some.injEq] at h
            subst h
            rw [oneInFlight_append_polls _ _ (pollPhase_mem _ _ _ hp)]
            simp only [oneInFlight]
            simpa using ih rest tl hl

theorem loop_at_most_one_in_flight_witness :
    oneInFlight false [Ev.pollReady true, Ev.sendReady, Ev.recvJob 1,
      Ev.callJob 1, Ev.sendOutput 2, Ev.pollReady true, Ev.sendReady,
      Ev.closeReady, Ev.closeOutput] = true :=
  loop_at_most_one_in_flight (fun x => 2 * x) [1] [[(true, true)], [(true, true)]] _ (by rfl)

/-- Claim C2: the wrapper never invokes Job on the worker unless the most recent
Ready call of the worker returned true: the readiness handshake always
precedes the job handoff. -/
theorem loop_job_only_when_ready (f : Int → Int) (jobs : List Int)
    (oracles : List (List (Bool × Bool))) (tr : List Ev)
    (h : Loop f jobs oracles = some tr) : readyScan false tr = true :=
  loop_readyScan_all f oracles jobs tr h false

theorem loop_job_only_when_ready_witness :
    readyScan false [Ev.pollReady false, Ev.checkOpen true, Ev.pollReady true,
      Ev.sendReady, Ev.recvJob 2, Ev.callJob 2, Ev.sendOutput 5,
      Ev.pollReady true, Ev.sendReady, Ev.closeReady, Ev.closeOutput] = true :=
  loop_job_only_when_ready (fun x => x + 3) [2]
    [[(false, true), (true, true)], [(true, true)]] _ (by rfl)

/-- Claim C3, as stated, is false on the code: in the run in which the warming-up
poll observes the closed pool, the loop still sends once on the ready
channel after the checkOpen false observation, before exiting. -/
theorem closed_pool_still_sends_ready_counterexample :
    Loop (fun x => x) [] [[(false, false)]] =
      some [Ev.pollReady false, Ev.checkOpen false, Ev.sendReady,
        Ev.closeReady, Ev.closeOutput] ∧
    noReadySentAfterClose false [Ev.pollReady false, Ev.checkOpen false,
      Ev.sendReady, Ev.closeReady, Ev.closeOutput] = false :=
  ⟨rfl, rfl⟩

/-- Claim C3 amended: once pool closure is observed while polling readiness, the
loop stops polling and sends exactly one final ready signal (which the Join
drain consumes), then closes the ready channel and the output channel and
exits through the already closed job channel; it never polls, accepts a job
or signals ready again. -/
theorem loop_after_close_observed (f : Int → Int) (jobs : List Int)
    (oracles : List (List (Bool × Bool))) (tr : List Ev)
    (h : Loop f jobs oracles = some tr) :
    tailAfterClose tr = none ∨
      tailAfterClose tr = some [Ev.sendReady, Ev.closeReady, Ev.closeOutput] := by
  induction oracles generalizing jobs tr with
  | nil => simp [Loop] at h
  | cons oracle oracles ih =>
    simp only [Loop] at h
    cases hp : pollPhase oracle with
    | none => rw [hp] at h; simp at h
    | some pr =>
      obtain ⟨ptr, ok⟩ := pr
      rw [hp] at h
      cases ok with
      | false =>
        simp only [Option.some.injEq] at h
        subst h
        exact Or.inr (tailAfterClose_pollPhase_false _ _ hp _)
      | true =>
        have hnm := pollPhase_no_closeObs _ _ hp
        cases jobs with
        | nil =>
          simp only [Option.some.injEq] at h
          subst h
          rw [tailAfterClose_append_of_not_mem _ _ hnm]
          exact Or.inl rfl
        | cons j rest =>
          simp only at h
          cases hl : Loop f rest oracles with
          | none => rw [hl] at h; simp at h
          | some tl =>
            rw [hl] at h
            simp only [Option.some.injEq] at h
            subst h
            rw [tailAfterClose_append_of_not_mem _ _ hnm]
            simpa [tailAfterClose] using ih rest tl hl

theorem loop_after_close_observed_witness :
    tailAfterClose [Ev.pollReady true, Ev.sendReady, Ev.recvJob 4,
      Ev.callJob 4, Ev.sendOutput 4, Ev.pollReady false, Ev.checkOpen false,
      Ev.sendReady, Ev.closeReady, Ev.closeOutput] = none ∨
    tailAfterClose [Ev.pollReady true, Ev.sendReady, Ev.recvJob 4,
      Ev.callJob 4, Ev.sendOutput 4, Ev.pollReady false, Ev.checkOpen false,
      Ev.sendReady, Ev.closeReady, Ev.closeOutput] =
      some [Ev.sendReady, Ev.closeReady, Ev.closeOutput] :=
  loop_after_close_observed (fun x => x) [4] [[(true, true)], [(false, false)]] _ (by rfl)

/-- Claim C4: for a worker implementing the extended capability the wrapper calls
Initialize exactly once, as the very first action before the loop starts and
hence before any Ready check, and Terminate exactly once, as the last
action, only after Join has seen both channels closed (the loop fully
exited), never before. -/
theorem wrapper_init_terminate_once (f : Int → Int) (jobs : List Int)
    (oracles : List (List (Bool × Bool))) (tr : List Ev)
    (h : wrapperRun true f jobs oracles = some tr) :
    tr.head? = some Ev.initCall ∧
    tr.count Ev.initCall = 1 ∧ tr.count Ev.termCall = 1 ∧
    tr.drop (tr.length - 3) = [Ev.closeReady, Ev.closeOutput, Ev.termCall] := by
  rw [wrapperRun] at h
  cases hl : Loop f jobs oracles with
  | none => rw [hl] at h; simp at h
  | some ltr =>
    rw [hl] at h
    simp only [if_true, Option.some.injEq] at h
    subst h
    obtain ⟨pre, rfl⟩ := loop_ends_close _ _ _ _ hl
    obtain ⟨hni, hnt⟩ := loop_no_init_term _ _ _ _ hl
    have hpre_i : Ev.initCall ∉ pre := fun hm => hni (by simp [hm])
    have hpre_t : Ev.termCall ∉ pre := fun hm => hnt (by simp [hm])
    simp only [List.singleton_append, List.cons_append, List.append_assoc,
      List.nil_append]
    refine ⟨rfl, ?_, ?_, ?_⟩
    · simp [List.count_cons, List.count_append, List.count_eq_zero.mpr hpre_i]
    · simp [List.count_cons, List.count_append, List.count_eq_zero.mpr hpre_t]
    · rw [show Ev.initCall :: (pre ++ [Ev.closeReady, Ev.closeOutput, Ev.termCall]) =
        (Ev.initCall :: pre) ++ [Ev.closeReady, Ev.closeOutput, Ev.termCall] from rfl]
      rw [List.length_append, List.length_cons]
      simp only [List.length_cons, List.length_nil]
      rw [show pre.length + 1 + (0 + 1 + 1 + 1) - 3 = (Ev.initCall :: pre).length from by
        simp [List.length_cons]]
      exact List.drop_left _ _

theorem wrapper_init_terminate_once_witness :
    ([Ev.initCall, Ev.pollReady true, Ev.sendReady, Ev.recvJob 7, Ev.callJob 7,
      Ev.sendOutput 7, Ev.pollReady true, Ev.sendReady, Ev.closeReady,
      Ev.closeOutput, Ev.termCall] : List Ev).head? = some Ev.initCall ∧
    ([Ev.initCall, Ev.pollReady true, Ev.sendReady, Ev.recvJob 7, Ev.callJob 7,
      Ev.sendOutput 7, Ev.pollReady true, Ev.sendReady, Ev.closeReady,
      Ev.closeOutput, Ev.termCall] : List Ev).count Ev.initCall = 1 ∧
    ([Ev.initCall, Ev.pollReady true, Ev.sendReady, Ev.recvJob 7, Ev.callJob 7,
      Ev.sendOutput 7, Ev.pollReady true, Ev.sendReady, Ev.closeReady,
      Ev.closeOutput, Ev.termCall] : List Ev).count Ev.termCall = 1 ∧
    ([Ev.initCall, Ev.pollReady true, Ev.sendReady, Ev.recvJob 7, Ev.callJob 7,
      Ev.sendOutput 7, Ev.pollReady true, Ev.sendReady, Ev.closeReady,
      Ev.closeOutput, Ev.termCall] : List Ev).drop
        (([Ev.initCall, Ev.pollReady true, Ev.sendReady, Ev.recvJob 7,
          Ev.callJob 7, Ev.sendOutput 7, Ev.pollReady true, Ev.sendReady,
          Ev.closeReady, Ev.closeOutput, Ev.termCall] : List Ev).length - 3) =
      [Ev.closeReady, Ev.closeOutput, Ev.termCall] :=
  wrapper_init_terminate_once (fun x => x) [7] [[(true, true)], [(true, true)]] _ (by rfl)

/-- Claim C5: when the loop exits it closes the ready channel and then the output
channel (the final two events of every complete run), and the drain loop of
Join terminates exactly when both channels report closed, whatever items are
still pending on them, including the case in which the loop exited before
Join was called. -/
theorem loop_closes_channels_join_terminates (f : Int → Int) (jobs : List Int)
    (oracles : List (List (Bool × Bool))) (tr : List Ev)
    (rs : List Nat) (os : List Int) (h : Loop f jobs oracles = some tr) :
    tr.drop (tr.length - 2) = [Ev.closeReady, Ev.closeOutput] ∧
    joinDrain (max rs.length os.length + 1) rs os = true := by
  constructor
  · obtain ⟨pre, rfl⟩ := loop_ends_close _ _ _ _ h
    rw [List.length_append]
    simp only [List.length_cons, List.length_nil]
    rw [show pre.length + (0 + 1 + 1) - 2 = pre.length from by omega]
    exact List.drop_left _ _
  · exact joinDrain_total _ rs os (Nat.lt_succ_self _)

theorem loop_closes_channels_join_terminates_witness :
    ([Ev.pollReady true, Ev.sendReady, Ev.closeReady, Ev.closeOutput] :
      List Ev).drop
        (([Ev.pollReady true, Ev.sendReady, Ev.closeReady, Ev.closeOutput] :
          List Ev).length - 2) = [Ev.closeReady, Ev.closeOutput] ∧
    joinDrain (max ([1] : List Nat).length ([7] : List Int).length + 1) [1] [7] = true :=
  loop_closes_channels_join_terminates (fun x => x) [] [[(true, true)]] _ [1] [7] (by rfl)

/-- Claim C6: Interrupt forwards the call to the Interrupt method of the worker
exactly when the worker implements the interruptable capability, and
otherwise is a no-op that changes nothing and calls nothing on the
worker. -/
theorem interrupt_forwards_iff_capable (w : WorkerIface) :
    (∀ impl, w.interruptImpl = some impl →
      wrapperInterrupt w = ({ w with state := impl w.state }, true)) ∧
    (w.interruptImpl = none → wrapperInterrupt w = (w, false)) := by
  constructor
  · intro impl himpl
    simp [wrapperInterrupt, himpl]
  · intro hnone
    simp [wrapperInterrupt, hnone]

theorem interrupt_forwards_iff_capable_witness :
    wrapperInterrupt ⟨0, some (fun s => s + 1)⟩ =
      (⟨1, some (fun s => s + 1)⟩, true) ∧
    wrapperInterrupt ⟨3, none⟩ = (⟨3, none⟩, false) :=
  ⟨(interrupt_forwards_iff_capable ⟨0, some (fun s => s + 1)⟩).1 _ rfl,
   (interrupt_forwards_iff_capable ⟨3, none⟩).2 rfl⟩

end Goroutine

namespace TcpPool

theorem fillPool_length (factory : Nat → Conn × Option Nat) (n : Nat) :
    ∀ (i : Nat) (acc cs : List Conn),
      fillPool factory n i acc = Except.ok cs → cs.length = acc.length + n := by
  induction n with
  | zero =>
    intro i acc cs h
    simp only [fillPool, Except.ok.injEq] at h
    subst h
    simp
  | succ m ih =>
    intro i acc cs h
    simp only [fillPool] at h
    cases hf : factory i with
    | mk conn err =>
      rw [hf] at h
      cases err with
      | some e => simp at h
      | none =>
        simp only at h
        have hrec := ih (i + 1) (acc ++ [conn]) cs h
        simp only [List.length_append, List.length_cons, List.length_nil] at hrec
        omega

/-- Claim C7: returning an invalid connection is rejected locally: put with a nil
connection returns an error and leaves the stored connections unchanged, and
a connection marked unusable is closed by PoolConn.Close rather than being
returned to the pool. -/
theorem put_nil_rejected_unusable_closed (p : channelPool) (c : Nat) :
    channelPool.put p none = (some PoolErr.errNilConn, p, false) ∧
    PoolConn.Close ⟨some c, true⟩ p = (none, p, true) :=
  ⟨rfl, rfl⟩

/-- Claim C8: after Close has run, every subsequent Get returns the closed-pool
error ErrClosed and no connection, and a second Close is a harmless no-op
(the early return fires before the close of the nil channel, so no panic and
no state change). -/
theorem get_after_close_errclosed_close_idempotent (p : channelPool)
    (fres : Conn × Option Nat) :
    channelPool.Get (channelPool.Close p).1 fres =
      ((none, some PoolErr.errClosed), (channelPool.Close p).1, false) ∧
    channelPool.Close (channelPool.Close p).1 = ((channelPool.Close p).1, 0) := by
  obtain ⟨conns, cap⟩ := p
  cases conns <;> simp [channelPool.Close, channelPool.Get]

/-- Claim C9: the pool never stores more than maxCap connections: NewChannelPool
demands 0 <= initialCap <= maxCap and maxCap > 0 (otherwise the invalid
capacity error) and on success builds a buffer of capacity maxCap holding
exactly initialCap connections; put on a full buffer closes the connection
instead of storing it and leaves the pool unchanged; and put preserves the
bound Len <= cap, so Len never exceeds maxCap. -/
theorem pool_capacity_invariant (initialCap maxCap : Int)
    (factory : Nat → Conn × Option Nat) (p : channelPool) (conn : Conn) :
    (¬(0 ≤ initialCap ∧ initialCap ≤ maxCap ∧ 0 < maxCap) →
      NewChannelPool initialCap maxCap factory = Except.error PoolErr.errInvalidCap) ∧
    (∀ q, NewChannelPool initialCap maxCap factory = Except.ok q →
      q.cap = maxCap.toNat ∧ q.Len = initialCap.toNat ∧ q.Len ≤ q.cap) ∧
    (∀ cs c, p.conns = some cs → cs.length = p.cap →
      channelPool.put p (some c) = (none, p, true)) ∧
    (p.Len ≤ p.cap →
      (channelPool.put p conn).2.1.Len ≤ (channelPool.put p conn).2.1.cap) := by
  refine ⟨?_, ?_, ?_, ?_⟩
  · intro hinv
    have hc : initialCap < 0 ∨ maxCap ≤ 0 ∨ initialCap > maxCap := by omega
    rw [NewChannelPool, if_pos hc]
  · intro q hq
    by_cases hc : initialCap < 0 ∨ maxCap ≤ 0 ∨ initialCap > maxCap
    · rw [NewChannelPool, if_pos hc] at hq
      simp at hq
    · rw [NewChannelPool, if_neg hc] at hq
      cases hf : fillPool factory initialCap.toNat 0 [] with
      | error e => rw [hf] at hq; simp at hq
      | ok cs =>
        rw [hf] at hq
        simp only [Except.ok.injEq] at hq
        subst hq
        have hlen := fillPool_length factory _ 0 [] cs hf
        simp only [List.length_nil, Nat.zero_add] at hlen
        push_neg at hc
        refine ⟨rfl, ?_, ?_⟩
        · simp [channelPool.Len, hlen]
        · simp only [channelPool.Len, hlen]
          omega
  · intro cs c hcs hfull
    obtain ⟨pc, pcap⟩ := p
    simp only at hcs hfull
    subst hcs
    simp only [channelPool.put]
    rw [if_neg (by omega)]
  · intro hb
    obtain ⟨pc, pcap⟩ := p
    cases conn with
    | none => exact hb
    | some c =>
      cases pc with
      | none => exact hb
      | some cs =>
        simp only [channelPool.put]
        by_cases hlt : cs.length < pcap
        · rw [if_pos hlt]
          simp only [channelPool.Len, List.length_append, List.length_cons,
            List.length_nil]
          omega
        · rw [if_neg hlt]
          exact hb

theorem pool_capacity_invariant_witness :
    NewChannelPool (-1) 2 (fun i => (some i, none)) =
      Except.error PoolErr.errInvalidCap ∧
    channelPool.put ⟨some [some 5, some 6], 2⟩ (some 7) =
      (none, ⟨some [some 5, some 6], 2⟩, true) :=
  ⟨(pool_capacity_invariant (-1) 2 (fun i => (some i, none))
      ⟨some [some 5, some 6], 2⟩ (some 7)).1 (by omega),
   (pool_capacity_invariant (-1) 2 (fun i => (some i, none))
      ⟨some [some 5, some 6], 2⟩ (some 7)).2.2.1 [some 5, some 6] 7 rfl rfl⟩

/-- Claim C10: Get on an open pool never blocks (the select has a default branch,
so the model is a total function of the pool state) and never returns a nil
connection together with a nil error: a buffered connection is returned when
one is present, otherwise the factory is invoked and either its fresh
connection or its failure is returned to the caller.  A nil value buffered at
the head, which only a factory that returned a nil connection with a nil
error can have produced, is treated as a closed pool by the source, so the
buffered-connection clause is stated for non-nil heads. -/
theorem get_nonblocking_behavior (p : channelPool) (cs : List Conn)
    (fres : Conn × Option Nat) (h : p.conns = some cs) :
    (∀ c rest, cs = some c :: rest →
      channelPool.Get p fres =
        ((some (wrapConn (some c)), none), { p with conns := some rest }, false)) ∧
    (∀ conn, cs = [] → fres = (conn, none) →
      channelPool.Get p fres = ((some (wrapConn conn), none), p, true)) ∧
    (∀ conn e, cs = [] → fres = (conn, some e) →
      channelPool.Get p fres = ((none, some (PoolErr.errFactory e)), p, true)) ∧
    (∀ res q called, channelPool.Get p fres = (res, q, called) →
      res.1 = none → res.2 ≠ none) := by
  obtain ⟨pc, pcap⟩ := p
  simp only at h
  subst h
  refine ⟨?_, ?_, ?_, ?_⟩
  · intro c rest hcs
    subst hcs
    rfl
  · intro conn hcs hf
    subst hcs
    subst hf
    rfl
  · intro conn e hcs hf
    subst hcs
    subst hf
    rfl
  · intro res q called hget hnil
    cases cs with
    | nil =>
      obtain ⟨fc, fe⟩ := fres
      cases fe with
      | none =>
        simp only [channelPool.Get, Prod.mk.injEq] at hget
        obtain ⟨hres, -⟩ := hget
        rw [← hres] at hnil
        simp at hnil
      | some e =>
        simp only [channelPool.Get, Prod.mk.injEq] at hget
        obtain ⟨hres, -⟩ := hget
        rw [← hres]
        simp
    | cons conn rest =>
      cases conn with
      | none =>
        simp only [channelPool.Get, Prod.mk.injEq] at hget
        obtain ⟨hres, -⟩ := hget
        rw [← hres]
        simp
      | some cval =>
        simp only [channelPool.Get, Prod.mk.injEq] at hget
        obtain ⟨hres, -⟩ := hget
        rw [← hres] at hnil
        simp at hnil

theorem get_nonblocking_behavior_witness :
    channelPool.Get ⟨some [some 3], 1⟩ (none, none) =
      ((some (wrapConn (some 3)), none), ⟨some [], 1⟩, false) :=
  (get_nonblocking_behavior ⟨some [some 3], 1⟩ [some 3] (none, none) rfl).1 3 [] rfl

end TcpPool
